import Mathlib

/-!
Shallow embedding of the PicoCTR PICOBOOT WebUSB flasher
(`PicobootConnection` in `src/js/picoboot.js` and the companion copy in
`src/unnamed/part_000`, whose UF2 parser and flash planner are identical and
whose binary-info extractor is the pointer-walking variant).

Bytes are modelled as natural numbers (each byte `< 256` where produced by the
encoders below); byte buffers are `List Nat`; JavaScript strings read out of
the image are kept as raw byte lists.  All definitions are executable.
-/

namespace PicoCTR

/-! ### Protocol and image constants (verbatim from the source) -/

def UF2_MAGIC_START0 : Nat := 0x0A324655
def UF2_MAGIC_START1 : Nat := 0x9E5D5157
def UF2_MAGIC_END : Nat := 0x0AB16F30
def UF2_FLAG_FAMILY : Nat := 0x00002000
def RP2040_FAMILY_ID : Nat := 0xE48BFF56
def RP2350_ARM_S_FAMILY_ID : Nat := 0xE48BFF59
def RP2350_ARM_NS_FAMILY_ID : Nat := 0xE48BFF5A
def RP2350_RISCV_FAMILY_ID : Nat := 0xE48BFF5B
def UF2_BLOCK_SIZE : Nat := 512
def FLASH_SECTOR_SIZE : Nat := 4096
def FLASH_PAGE_SIZE : Nat := 256
def MAX_RETRIES : Nat := 3
def BINARY_INFO_MARKER_START : Nat := 0x7188EBF2
def BINARY_INFO_MARKER_END : Nat := 0xE71AA390
def BI_TYPE_ID_AND_STRING : Nat := 6
def BINARY_INFO_TAG_RP : Nat := 0x5052
def BINARY_INFO_ID_RP_PROGRAM_NAME : Nat := 0x02031C86
def BINARY_INFO_ID_RP_PROGRAM_VERSION_STRING : Nat := 0x11A9BC3A
def BINARY_INFO_ID_RP_PROGRAM_FEATURE : Nat := 0xA1F4B453
def BINARY_INFO_ID_RP_PICO_BOARD : Nat := 0xB63CFFBB
def BINARY_INFO_ID_RP_SDK_VERSION : Nat := 0x5360B3AB
def RP2040_FLASH_START : Nat := 0x10000000

/-- Little-endian 32-bit read at byte offset `off`, as `DataView.getUint32(off,
true)` does on the underlying buffer.  Out-of-range bytes default to `0`; every
read performed by the parser below is in range once the size check has
passed. -/
def readU32 (d : List Nat) (off : Nat) : Nat :=
  d.getD off 0 + 256 * d.getD (off + 1) 0 + 65536 * d.getD (off + 2) 0 +
    16777216 * d.getD (off + 3) 0

/-! ### UF2 parser (`PicobootConnection.parseUF2`) -/

/-- One parsed UF2 block, as pushed onto `blocks` by `parseUF2`:
`{addr: targetAddr, data: payload, blockNo, numBlocks: numBlocksInFile}`. -/
structure UF2Block where
  addr : Nat
  data : List Nat
  blockNo : Nat
  numBlocks : Nat
deriving DecidableEq, Repr, Inhabited

/-- The distinct `Invalid UF2`-style errors thrown by `parseUF2`, one
constructor per `throw new Error(...)` site, carrying exactly the data
interpolated into the corresponding message. -/
inductive UF2Error where
  /-- `Invalid UF2 file: size S is not a multiple of 512` -/
  | badSize (size : Nat)
  /-- `Invalid UF2 block I: bad magic0 (0xM)` -/
  | badMagic0 (i : Nat) (m : Nat)
  /-- `Invalid UF2 block I: bad magic1 (0xM)` -/
  | badMagic1 (i : Nat) (m : Nat)
  /-- `Invalid UF2 block I: bad end magic (0xM)` -/
  | badMagicEnd (i : Nat) (m : Nat)
  /-- `UF2 block I: inconsistent family ID` -/
  | inconsistentFamily (i : Nat)
  /-- `UF2 family ID 0xF is not an RP2040/RP2350 firmware` -/
  | unknownFamily (familyId : Nat)
deriving DecidableEq, Repr

/-- The record index named in a `parseUF2` error message, when the message
names one (the size error and the family allow-list error do not). -/
def errIndex : UF2Error → Option Nat
  | .badSize _ => none
  | .badMagic0 i _ => some i
  | .badMagic1 i _ => some i
  | .badMagicEnd i _ => some i
  | .inconsistentFamily i => some i
  | .unknownFamily _ => none

/-- Result of `parseUF2`: `{ blocks, familyId, totalBlocks }`. -/
structure ParseResult where
  blocks : List UF2Block
  familyId : Nat
  totalBlocks : Nat
deriving DecidableEq, Repr

deriving instance DecidableEq for Except

/-- The four-entry family allow-list `validFamilies` from `parseUF2`. -/
def validFamilies : List Nat :=
  [RP2040_FAMILY_ID, RP2350_ARM_S_FAMILY_ID, RP2350_ARM_NS_FAMILY_ID,
    RP2350_RISCV_FAMILY_ID]

/-! Record-level accessors: the fields `parseUF2` reads out of record `i` via
`DataView` at the offsets of the UF2 block layout. -/

/-- `magic0` of record `i`. -/
def recMagic0 (d : List Nat) (i : Nat) : Nat := readU32 d (512 * i)

/-- `magic1` of record `i`. -/
def recMagic1 (d : List Nat) (i : Nat) : Nat := readU32 d (512 * i + 4)

/-- `magicEnd` of record `i`. -/
def recMagicEnd (d : List Nat) (i : Nat) : Nat := readU32 d (512 * i + 508)

/-- `flags` of record `i`. -/
def recFlags (d : List Nat) (i : Nat) : Nat := readU32 d (512 * i + 8)

/-- `targetAddr` of record `i`. -/
def recAddr (d : List Nat) (i : Nat) : Nat := readU32 d (512 * i + 12)

/-- `payloadSize` of record `i`. -/
def recPayloadSize (d : List Nat) (i : Nat) : Nat := readU32 d (512 * i + 16)

/-- `blockNo` of record `i`. -/
def recBlockNo (d : List Nat) (i : Nat) : Nat := readU32 d (512 * i + 20)

/-- `numBlocksInFile` of record `i`. -/
def recNumBlocks (d : List Nat) (i : Nat) : Nat := readU32 d (512 * i + 24)

/-- `fileFamilyID`/`blockFamilyId` field of record `i`. -/
def recFamily (d : List Nat) (i : Nat) : Nat := readU32 d (512 * i + 28)

/-- Whether record `i` has the family-present flag bit set. -/
def famFlagged (d : List Nat) (i : Nat) : Prop :=
  recFlags d i &&& UF2_FLAG_FAMILY ≠ 0

instance (d : List Nat) (i : Nat) : Decidable (famFlagged d i) := by
  unfold famFlagged; infer_instance

/-- The file-wide family id `parseUF2` settles on: record 0's family field
when record 0 is flagged, `0` otherwise (later records never update it; they
are only compared against it). -/
def fileFamily (d : List Nat) : Nat :=
  if famFlagged d 0 then recFamily d 0 else 0

/-- The block `parseUF2` pushes for record `i`:
`{addr: targetAddr, data: payload, blockNo, numBlocks: numBlocksInFile}`, with
`payload = data.slice(offset + 32, offset + 32 + payloadSize)` — note the
slice is over the whole file and clamps at the end of the file, not at the end
of the record. -/
def decodeBlock (d : List Nat) (i : Nat) : UF2Block :=
  ⟨recAddr d i, (d.drop (512 * i + 32)).take (recPayloadSize d i),
    recBlockNo d i, recNumBlocks d i⟩

/-- The body of `parseUF2`'s `for (let i = 0; i < numBlocks; i++)` loop.
`fuel` is the number of records still to process (`numBlocks - i`), `fam` the
running `familyId`, `acc` the reversed `blocks` accumulator.  The record
fields are read through the accessors above; magic validation, the family
consistency check and the payload slice follow the source line by line. -/
def parseBlocks (d : List Nat) : Nat → Nat → Nat → List UF2Block →
    Except UF2Error (List UF2Block × Nat)
  | _, 0, fam, acc => .ok (acc.reverse, fam)
  | i, fuel + 1, fam, acc =>
    if recMagic0 d i ≠ UF2_MAGIC_START0 then .error (.badMagic0 i (recMagic0 d i))
    else if recMagic1 d i ≠ UF2_MAGIC_START1 then .error (.badMagic1 i (recMagic1 d i))
    else if recMagicEnd d i ≠ UF2_MAGIC_END then .error (.badMagicEnd i (recMagicEnd d i))
    else if famFlagged d i then
      if i = 0 then parseBlocks d (i + 1) fuel (recFamily d i) (decodeBlock d i :: acc)
      else if recFamily d i ≠ fam then .error (.inconsistentFamily i)
      else parseBlocks d (i + 1) fuel fam (decodeBlock d i :: acc)
    else parseBlocks d (i + 1) fuel fam (decodeBlock d i :: acc)

/-- `PicobootConnection.parseUF2` over a raw byte list. -/
def parseUF2 (d : List Nat) : Except UF2Error ParseResult :=
  if d.length % UF2_BLOCK_SIZE ≠ 0 then .error (.badSize d.length)
  else
    let numBlocks := d.length / UF2_BLOCK_SIZE
    match parseBlocks d 0 numBlocks 0 [] with
    | .error e => .error e
    | .ok (blocks, familyId) =>
      -- `if (familyId && !validFamilies.includes(familyId)) throw ...`
      if familyId ≠ 0 ∧ familyId ∉ validFamilies then
        .error (.unknownFamily familyId)
      else .ok ⟨blocks, familyId, numBlocks⟩

/-! ### Characterisation lemmas for the parser loop -/

/-- Successful loop runs append exactly the decoded records to the
accumulator. -/
theorem parseBlocks_ok_blocks (d : List Nat) :
    ∀ (fuel i fam : Nat) (acc bs : List UF2Block) (f : Nat),
      parseBlocks d i fuel fam acc = .ok (bs, f) →
      bs = acc.reverse ++ (List.range fuel).map (fun k => decodeBlock d (i + k)) := by
  intro fuel
  induction fuel with
  | zero =>
    intro i fam acc bs f h
    simp only [parseBlocks] at h
    cases h
    simp
  | succ fuel ih =>
    intro i fam acc bs f h
    simp only [parseBlocks] at h
    split at h
    · exact absurd h (by simp)
    · split at h
      · exact absurd h (by simp)
      · split at h
        · exact absurd h (by simp)
        · have hstep : ∀ fam', parseBlocks d (i + 1) fuel fam' (decodeBlock d i :: acc) = .ok (bs, f) →
              bs = acc.reverse ++ (List.range (fuel + 1)).map (fun k => decodeBlock d (i + k)) := by
            intro fam' h'
            have := ih (i + 1) fam' (decodeBlock d i :: acc) bs f h'
            rw [this, List.range_succ_eq_map]
            simp [List.map_map, Function.comp_def, Nat.add_assoc, Nat.add_comm 1]
          split at h
          · split at h
            · exact hstep _ h
            · split at h
              · exact absurd h (by simp)
              · exact hstep _ h
          · exact hstep _ h

/-- What a loop-level error says about the input: each error constructor
names a record in `[lo, hi)` that genuinely fails the corresponding check
(`fam` is the family id the loop is comparing against).  The size error and
the allow-list error are never produced by the loop. -/
def loopErrNames (d : List Nat) (fam lo hi : Nat) : UF2Error → Prop
  | .badSize _ => False
  | .badMagic0 j m => lo ≤ j ∧ j < hi ∧ recMagic0 d j = m ∧ m ≠ UF2_MAGIC_START0
  | .badMagic1 j m => lo ≤ j ∧ j < hi ∧ recMagic1 d j = m ∧ m ≠ UF2_MAGIC_START1
  | .badMagicEnd j m => lo ≤ j ∧ j < hi ∧ recMagicEnd d j = m ∧ m ≠ UF2_MAGIC_END
  | .inconsistentFamily j =>
    lo ≤ j ∧ j < hi ∧ j ≠ 0 ∧ famFlagged d j ∧ recFamily d j ≠ fam
  | .unknownFamily _ => False

theorem loopErrNames_mono {d : List Nat} {fam lo hi lo' hi' : Nat} {e : UF2Error}
    (hlo : lo' ≤ lo) (hhi : hi ≤ hi') (h : loopErrNames d fam lo hi e) :
    loopErrNames d fam lo' hi' e := by
  cases e <;> simp only [loopErrNames] at h ⊢
  · exact ⟨le_trans hlo h.1, lt_of_lt_of_le h.2.1 hhi, h.2.2⟩
  · exact ⟨le_trans hlo h.1, lt_of_lt_of_le h.2.1 hhi, h.2.2⟩
  · exact ⟨le_trans hlo h.1, lt_of_lt_of_le h.2.1 hhi, h.2.2⟩
  · exact ⟨le_trans hlo h.1, lt_of_lt_of_le h.2.1 hhi, h.2.2⟩

/-- Away from record 0 the loop threads `fam` unchanged, and success means
every processed record passed the magic checks and, when flagged, matched
`fam`. -/
theorem parseBlocks_ok_checks (d : List Nat) :
    ∀ (fuel i fam : Nat) (acc bs : List UF2Block) (f : Nat), 1 ≤ i →
      parseBlocks d i fuel fam acc = .ok (bs, f) →
      f = fam ∧ ∀ j, i ≤ j → j < i + fuel →
        recMagic0 d j = UF2_MAGIC_START0 ∧ recMagic1 d j = UF2_MAGIC_START1 ∧
        recMagicEnd d j = UF2_MAGIC_END ∧
        (famFlagged d j → recFamily d j = fam) := by
  intro fuel
  induction fuel with
  | zero =>
    intro i fam acc bs f hi h
    simp only [parseBlocks] at h
    cases h
    exact ⟨rfl, fun j h1 h2 => absurd (lt_of_le_of_lt h1 h2) (by omega)⟩
  | succ fuel ih =>
    intro i fam acc bs f hi h
    simp only [parseBlocks] at h
    split at h
    · simp at h
    next hm0 =>
    split at h
    · simp at h
    next hm1 =>
    split at h
    · simp at h
    next hme =>
    rw [not_not] at hm0 hm1 hme
    have step : parseBlocks d (i + 1) fuel fam (decodeBlock d i :: acc) = .ok (bs, f) →
        (famFlagged d i → recFamily d i = fam) →
        f = fam ∧ ∀ j, i ≤ j → j < i + (fuel + 1) →
          recMagic0 d j = UF2_MAGIC_START0 ∧ recMagic1 d j = UF2_MAGIC_START1 ∧
          recMagicEnd d j = UF2_MAGIC_END ∧
          (famFlagged d j → recFamily d j = fam) := by
      intro h' hfam
      obtain ⟨hf, hrest⟩ := ih (i + 1) fam (decodeBlock d i :: acc) bs f (by omega) h'
      refine ⟨hf, fun j h1 h2 => ?_⟩
      rcases eq_or_lt_of_le h1 with rfl | hlt
      · exact ⟨hm0, hm1, hme, hfam⟩
      · exact hrest j hlt (by omega)
    split at h
    next hflag =>
      split at h
      next hzero => omega
      next hzero =>
        split at h
        · simp at h
        next hfam => exact step h (fun _ => not_not.mp hfam)
    next hflag => exact step h (fun hc => absurd hc hflag)

/-- Away from record 0, a loop-level error names a genuinely offending
record. -/
theorem parseBlocks_err (d : List Nat) :
    ∀ (fuel i fam : Nat) (acc : List UF2Block) (e : UF2Error), 1 ≤ i →
      parseBlocks d i fuel fam acc = .error e →
      loopErrNames d fam i (i + fuel) e := by
  intro fuel
  induction fuel with
  | zero =>
    intro i fam acc e hi h
    simp only [parseBlocks] at h
    cases h
  | succ fuel ih =>
    intro i fam acc e hi h
    simp only [parseBlocks] at h
    split at h
    next hm0 =>
      cases h
      exact ⟨le_refl i, by omega, rfl, not_not.mp (by simpa using hm0)⟩
    next hm0 =>
    split at h
    next hm1 =>
      cases h
      exact ⟨le_refl i, by omega, rfl, by simpa using hm1⟩
    next hm1 =>
    split at h
    next hme =>
      cases h
      exact ⟨le_refl i, by omega, rfl, by simpa using hme⟩
    next hme =>
    have step : parseBlocks d (i + 1) fuel fam (decodeBlock d i :: acc) = .error e →
        loopErrNames d fam i (i + (fuel + 1)) e := fun h' =>
      loopErrNames_mono (by omega) (by omega) (ih (i + 1) fam _ e (by omega) h')
    split at h
    next hflag =>
      split at h
      next hzero => omega
      next hzero =>
        split at h
        next hfam =>
          cases h
          exact ⟨le_refl i, by omega, hzero, hflag, hfam⟩
        next hfam => exact step h
    next hflag => exact step h

/-- If every record to come passes the magic checks and every flagged record
carries family id `0`, the loop (running with `fam = 0`) succeeds and reports
family id `0`. -/
theorem parseBlocks_all_valid_ok (d : List Nat) :
    ∀ (fuel i : Nat) (acc : List UF2Block),
      (∀ j, i ≤ j → j < i + fuel →
        recMagic0 d j = UF2_MAGIC_START0 ∧ recMagic1 d j = UF2_MAGIC_START1 ∧
        recMagicEnd d j = UF2_MAGIC_END ∧
        (famFlagged d j → recFamily d j = 0)) →
      ∃ bs, parseBlocks d i fuel 0 acc = .ok (bs, 0) := by
  intro fuel
  induction fuel with
  | zero => exact fun i acc _ => ⟨acc.reverse, rfl⟩
  | succ fuel ih =>
    intro i acc hvalid
    obtain ⟨hm0, hm1, hme, hfam⟩ := hvalid i (le_refl i) (by omega)
    have hrest : ∀ j, i + 1 ≤ j → j < i + 1 + fuel →
        recMagic0 d j = UF2_MAGIC_START0 ∧ recMagic1 d j = UF2_MAGIC_START1 ∧
        recMagicEnd d j = UF2_MAGIC_END ∧ (famFlagged d j → recFamily d j = 0) :=
      fun j h1 h2 => hvalid j (by omega) (by omega)
    obtain ⟨bs, hbs⟩ := ih (i + 1) (decodeBlock d i :: acc) hrest
    refine ⟨bs, ?_⟩
    simp only [parseBlocks, hm0, hm1, hme]
    by_cases hflag : famFlagged d i
    · have h0 : recFamily d i = 0 := hfam hflag
      by_cases hz : i = 0
      · subst hz
        simp [hflag, h0, hbs]
      · simp [hflag, h0, hz, hbs]
    · simp [hflag, hbs]

theorem readU32_nil (off : Nat) : readU32 [] off = 0 := by
  simp [readU32]

/-- Full-run version of `parseBlocks_ok_checks`, starting at record 0 the way
`parseUF2` does: the reported family id is `fileFamily d` and every record
passed its checks against it. -/
theorem parseBlocks_ok_checks0 (d : List Nat) (n : Nat) (bs : List UF2Block)
    (f : Nat) (hn : 0 < n) (h : parseBlocks d 0 n 0 [] = .ok (bs, f)) :
    f = fileFamily d ∧ ∀ j, j < n →
      recMagic0 d j = UF2_MAGIC_START0 ∧ recMagic1 d j = UF2_MAGIC_START1 ∧
      recMagicEnd d j = UF2_MAGIC_END ∧
      (famFlagged d j → recFamily d j = fileFamily d) := by
  obtain ⟨m, rfl⟩ : ∃ m, n = m + 1 := ⟨n - 1, by omega⟩
  simp only [parseBlocks] at h
  split at h
  · simp at h
  next hm0 =>
  split at h
  · simp at h
  next hm1 =>
  split at h
  · simp at h
  next hme =>
  rw [not_not] at hm0 hm1 hme
  have step : ∀ fam', parseBlocks d 1 m fam' [decodeBlock d 0] = .ok (bs, f) →
      fam' = fileFamily d →
      f = fileFamily d ∧ ∀ j, j < m + 1 →
        recMagic0 d j = UF2_MAGIC_START0 ∧ recMagic1 d j = UF2_MAGIC_START1 ∧
        recMagicEnd d j = UF2_MAGIC_END ∧
        (famFlagged d j → recFamily d j = fileFamily d) := by
    intro fam' h' hfam'
    obtain ⟨hf, hrest⟩ := parseBlocks_ok_checks d m 1 fam' _ bs f (le_refl 1) h'
    subst hfam'
    refine ⟨hf, fun j hj => ?_⟩
    rcases Nat.eq_zero_or_pos j with rfl | hpos
    · exact ⟨hm0, hm1, hme, fun hfl => by rw [fileFamily, if_pos hfl]⟩
    · exact hrest j (by omega) (by omega)
  split at h
  next hflag =>
    simp only [if_true, Nat.zero_add] at h
    exact step _ h (by rw [fileFamily, if_pos hflag])
  next hflag =>
    simp only [Nat.zero_add] at h
    exact step _ h (by rw [fileFamily, if_neg hflag])

/-- Full-run error version: an error out of the loop names a genuinely
offending record, judged against `fileFamily d`. -/
theorem parseBlocks_err0 (d : List Nat) (n : Nat) (e : UF2Error)
    (h : parseBlocks d 0 n 0 [] = .error e) :
    loopErrNames d (fileFamily d) 0 n e := by
  cases n with
  | zero =>
    simp only [parseBlocks] at h
    simp at h
  | succ m =>
    simp only [parseBlocks] at h
    split at h
    next hm0 =>
      cases h
      exact ⟨Nat.zero_le 0, by omega, rfl, by simpa using hm0⟩
    next hm0 =>
    split at h
    next hm1 =>
      cases h
      exact ⟨Nat.zero_le 0, by omega, rfl, by simpa using hm1⟩
    next hm1 =>
    split at h
    next hme =>
      cases h
      exact ⟨Nat.zero_le 0, by omega, rfl, by simpa using hme⟩
    next hme =>
    have step : ∀ fam', parseBlocks d 1 m fam' [decodeBlock d 0] = .error e →
        fam' = fileFamily d → loopErrNames d (fileFamily d) 0 (m + 1) e := by
      intro fam' h' hfam'
      subst hfam'
      exact loopErrNames_mono (Nat.zero_le 1) (by omega)
        (parseBlocks_err d m 1 _ _ e (le_refl 1) h')
    split at h
    next hflag =>
      simp only [if_true, Nat.zero_add] at h
      exact step _ h (by rw [fileFamily, if_pos hflag])
    next hflag =>
      simp only [Nat.zero_add] at h
      exact step _ h (by rw [fileFamily, if_neg hflag])

/-- What each `parseUF2` error names about the offending input.  The magic
and family-consistency errors carry the offending record index; the size
error carries the file size and the allow-list error carries the family id —
neither of those two names a record index (`errIndex` is `none` on them). -/
def errNames (d : List Nat) : UF2Error → Prop
  | .badSize n => n = d.length ∧ n % UF2_BLOCK_SIZE ≠ 0
  | .badMagic0 j m =>
    j < d.length / UF2_BLOCK_SIZE ∧ recMagic0 d j = m ∧ m ≠ UF2_MAGIC_START0
  | .badMagic1 j m =>
    j < d.length / UF2_BLOCK_SIZE ∧ recMagic1 d j = m ∧ m ≠ UF2_MAGIC_START1
  | .badMagicEnd j m =>
    j < d.length / UF2_BLOCK_SIZE ∧ recMagicEnd d j = m ∧ m ≠ UF2_MAGIC_END
  | .inconsistentFamily j =>
    0 < j ∧ j < d.length / UF2_BLOCK_SIZE ∧ famFlagged d j ∧
      recFamily d j ≠ fileFamily d
  | .unknownFamily f => f = fileFamily d ∧ f ≠ 0 ∧ f ∉ validFamilies

/-- C3 (amended).  `parseUF2` never silently skips an offending record: a
size that is not a multiple of 512 yields the size error; success implies
every record passed the magic checks, every flagged record matched the file
family id, and the file family id is zero or allow-listed; and every thrown
error is distinct and names its offender — the magic and family-consistency
errors name the offending record index, while the size error names the file
size and the allow-list error names the family id (no record index for those
two). -/
theorem uf2_validation_errors :
    (∀ d : List Nat, d.length % UF2_BLOCK_SIZE ≠ 0 →
      parseUF2 d = .error (.badSize d.length)) ∧
    (∀ (d : List Nat) (r : ParseResult), parseUF2 d = .ok r →
      r.totalBlocks = d.length / UF2_BLOCK_SIZE ∧
      r.familyId = fileFamily d ∧
      (fileFamily d = 0 ∨ fileFamily d ∈ validFamilies) ∧
      ∀ j, j < r.totalBlocks →
        recMagic0 d j = UF2_MAGIC_START0 ∧ recMagic1 d j = UF2_MAGIC_START1 ∧
        recMagicEnd d j = UF2_MAGIC_END ∧
        (famFlagged d j → recFamily d j = fileFamily d)) ∧
    (∀ (d : List Nat) (e : UF2Error), parseUF2 d = .error e → errNames d e) := by
  refine ⟨fun d h => by simp [parseUF2, h], ?_, ?_⟩
  · intro d r h
    simp only [parseUF2] at h
    split at h
    · simp at h
    next hsz =>
    rw [not_not] at hsz
    split at h
    next e heq => simp at h
    next blocks familyId heq =>
      split at h
      · simp at h
      next hfam =>
        cases h
        push_neg at hfam
        rcases Nat.eq_zero_or_pos (d.length / UF2_BLOCK_SIZE) with hn | hn
        · have hd : d = [] := by
            have : d.length = 0 := by
              have h512 : (UF2_BLOCK_SIZE : Nat) = 512 := rfl
              rw [h512] at hsz hn
              omega
            exact List.length_eq_zero.mp this
          subst hd
          simp only [parseBlocks] at heq
          cases heq
          refine ⟨rfl, ?_, ?_, fun j hj => absurd (hn ▸ hj) (Nat.not_lt_zero j)⟩
          · simp [fileFamily, famFlagged, recFlags, readU32_nil]
          · left
            simp [fileFamily, famFlagged, recFlags, readU32_nil]
        · obtain ⟨hf, hchecks⟩ := parseBlocks_ok_checks0 d _ blocks familyId hn heq
          subst hf
          exact ⟨rfl, rfl, by tauto, hchecks⟩
  · intro d e h
    simp only [parseUF2] at h
    split at h
    next hsz =>
      cases h
      exact ⟨rfl, hsz⟩
    next hsz =>
    rw [not_not] at hsz
    split at h
    next e' heq =>
      cases h
      have hloop := parseBlocks_err0 d _ e heq
      cases e <;> simp only [loopErrNames] at hloop <;>
        simp only [errNames]
      · exact ⟨hloop.2.1, hloop.2.2⟩
      · exact ⟨hloop.2.1, hloop.2.2⟩
      · exact ⟨hloop.2.1, hloop.2.2⟩
      · exact ⟨Nat.pos_of_ne_zero hloop.2.2.1, hloop.2.1, hloop.2.2.2⟩
    next blocks familyId heq =>
      split at h
      next hbad =>
        cases h
        obtain ⟨hne, hnotin⟩ := hbad
        rcases Nat.eq_zero_or_pos (d.length / UF2_BLOCK_SIZE) with hn | hn
        · rw [hn] at heq
          simp only [parseBlocks] at heq
          cases heq
          exact absurd rfl hne
        · obtain ⟨hf, _⟩ := parseBlocks_ok_checks0 d _ blocks familyId hn heq
          exact ⟨hf, hne, hnotin⟩
      · simp at h

/-! ### Counterexample and witness fixtures: hand-built UF2 images -/

/-- Little-endian 4-byte encoding of a 32-bit value. -/
def u32le (n : Nat) : List Nat :=
  [n % 256, n / 256 % 256, n / 65536 % 256, n / 16777216 % 256]

/-- A single well-formed 512-byte UF2 record with the given header fields;
the payload area is zero-padded to 476 bytes. -/
def mkRecord (flags addr payloadSize blockNo numBlocks famid : Nat)
    (payload : List Nat) : List Nat :=
  u32le UF2_MAGIC_START0 ++ u32le UF2_MAGIC_START1 ++ u32le flags ++
    u32le addr ++ u32le payloadSize ++ u32le blockNo ++ u32le numBlocks ++
    u32le famid ++ (payload ++ List.replicate 476 0).take 476 ++
    u32le UF2_MAGIC_END

/-- One-record image whose (flagged) family id is not in the allow-list. -/
def cex3file : List Nat :=
  mkRecord UF2_FLAG_FAMILY 0x10000000 0 0 1 0x12345678 []

set_option maxRecDepth 16384 in
/-- C3 counterexample: the family-allow-list failure is rejected (never
silently accepted), but the thrown error carries the family id and **no
record index**, so "a distinct invalid-image error that names the offending
record index" fails for this class of invalid input. -/
theorem uf2_unknownFamily_error_names_no_index :
    parseUF2 cex3file = .error (.unknownFamily 0x12345678) ∧
      errIndex (.unknownFamily 0x12345678) = none := by
  constructor
  · decide
  · rfl

/-- C3 witness: a 1-byte file is rejected with the size error. -/
theorem uf2_validation_errors_witness :
    (([37] : List Nat).length % UF2_BLOCK_SIZE ≠ 0) ∧
      parseUF2 [37] = .error (.badSize ([37] : List Nat).length) :=
  ⟨by decide, uf2_validation_errors.1 [37] (by decide)⟩

/-- Shared helper: on success `parseUF2` returns the decoded records in
authored (record) order. -/
theorem parseUF2_ok_blocks (d : List Nat) (r : ParseResult)
    (h : parseUF2 d = .ok r) :
    r.totalBlocks = d.length / UF2_BLOCK_SIZE ∧
      r.blocks = (List.range r.totalBlocks).map (decodeBlock d) := by
  simp only [parseUF2] at h
  split at h
  · simp at h
  next hsz =>
  split at h
  next e heq => simp at h
  next blocks familyId heq =>
    split at h
    · simp at h
    · cases h
      exact ⟨rfl, by simpa using parseBlocks_ok_blocks d _ 0 0 [] blocks familyId heq⟩

/-- The sort `flashUF2` performs before planning:
`blocks.sort((a, b) => a.addr - b.addr)` (a stable ascending sort by target
address). -/
def sortBlocksByAddr (bs : List UF2Block) : List UF2Block :=
  bs.mergeSort (fun a b => a.addr ≤ b.addr)

/-- C4 (amended).  `parseUF2` itself returns the blocks in authored record
order — block `j` is exactly the decode of record `j`, so the authored
sequence index (`blockNo`) is preserved — and it is `flashUF2`'s explicit
sort step that hands erase/write planning an address-ordered permutation of
those blocks. -/
theorem uf2_blocks_authored_order_then_flash_sort :
    (∀ (d : List Nat) (r : ParseResult), parseUF2 d = .ok r →
      r.blocks = (List.range r.totalBlocks).map (decodeBlock d)) ∧
    (∀ bs : List UF2Block,
      (sortBlocksByAddr bs).Pairwise (fun a b => a.addr ≤ b.addr) ∧
      (sortBlocksByAddr bs).Perm bs) := by
  refine ⟨fun d r h => (parseUF2_ok_blocks d r h).2, fun bs => ⟨?_, ?_⟩⟩
  · have hs := @List.sorted_mergeSort UF2Block
      (fun a b => decide (a.addr ≤ b.addr))
      (fun a b c hab hbc => by
        simp only [decide_eq_true_eq] at hab hbc ⊢; omega)
      (fun a b => by
        simp only [Bool.or_eq_true, decide_eq_true_eq]; omega) bs
    exact hs.imp (fun h => by simpa using h)
  · exact List.mergeSort_perm bs _

/-- Two well-formed records with strictly descending target addresses. -/
def cex4file : List Nat :=
  mkRecord 0 0x10000200 0 0 2 0 [] ++ mkRecord 0 0x10000100 0 1 2 0 []

set_option maxRecDepth 32768 in
/-- C4 counterexample: `parseUF2` itself does **not** return blocks sorted by
ascending address — on a valid two-record image with descending addresses it
returns them in authored order `[0x10000200, 0x10000100]`. -/
theorem uf2_parse_not_sorted_cex :
    (parseUF2 cex4file).map (fun r => r.blocks.map (fun b => b.addr)) =
        .ok [0x10000200, 0x10000100] ∧
      ¬ List.Pairwise (fun a b : Nat => a ≤ b) [0x10000200, 0x10000100] := by
  exact ⟨by decide, by decide⟩

/-- A minimal valid one-record image (4-byte payload). -/
def vfile : List Nat := mkRecord 0 0x10000000 4 0 1 0 [1, 2, 3, 4]

/-- What `parseUF2` returns on `vfile`. -/
def vres : ParseResult := ⟨[⟨0x10000000, [1, 2, 3, 4], 0, 1⟩], 0, 1⟩

set_option maxRecDepth 16384 in
/-- C4 witness. -/
theorem uf2_blocks_authored_order_then_flash_sort_witness :
    parseUF2 vfile = .ok vres ∧
      vres.blocks = (List.range vres.totalBlocks).map (decodeBlock vfile) :=
  have h : parseUF2 vfile = .ok vres := by decide
  ⟨h, uf2_blocks_authored_order_then_flash_sort.1 vfile vres h⟩

/-- C9 (amended).  A parsed block's payload is the slice of the **file**
starting at its record's payload offset, of length
`min(declared payloadSize, bytes remaining in the file)` — the slice is
clamped to the end of the file, not to the record.  Only when the declared
payload size is at most 476 (the 512-byte record minus the 32-byte header and
the 4-byte trailing magic) is the payload guaranteed to stay within the
record's own payload area. -/
theorem uf2_payload_clamped_to_file :
    ∀ (d : List Nat) (r : ParseResult), parseUF2 d = .ok r →
      ∀ j, j < r.totalBlocks →
        (r.blocks.getD j default).data.length =
            min (recPayloadSize d j) (d.length - (512 * j + 32)) ∧
          (recPayloadSize d j ≤ 476 →
            (r.blocks.getD j default).data.length ≤ 476) := by
  intro d r h j hj
  obtain ⟨hn, hb⟩ := parseUF2_ok_blocks d r h
  have hblk : r.blocks.getD j default = decodeBlock d j := by
    rw [hb, List.getD_eq_getElem _ _ (by simpa using hj), List.getElem_map,
      List.getElem_range]
  rw [hblk]
  constructor
  · simp [decodeBlock, List.length_take, List.length_drop]
  · intro hle
    simp only [decodeBlock, List.length_take, List.length_drop]
    omega

/-- One record declaring a 477-byte payload (one more than the record's
payload area holds). -/
def cex9file : List Nat := mkRecord 0 0x10000000 477 0 1 0 []

set_option maxRecDepth 16384 in
/-- C9 counterexample: with a declared payload size of 477, `parseUF2`
returns a block whose payload is 477 bytes long — longer than the 476-byte
payload area — and whose byte 476 is `0x30`, the first byte of the record's
own trailing magic: the payload ran past the record's payload area. -/
theorem uf2_payload_overflows_record_cex :
    (parseUF2 cex9file).map
        (fun r => ((r.blocks.getD 0 default).data.length,
          (r.blocks.getD 0 default).data.getD 476 0)) = .ok (477, 0x30) ∧
      ¬ (477 ≤ 476) := by
  exact ⟨by decide, by decide⟩

set_option maxRecDepth 16384 in
/-- C9 witness. -/
theorem uf2_payload_clamped_to_file_witness :
    parseUF2 vfile = .ok vres ∧ 0 < vres.totalBlocks ∧
      ((vres.blocks.getD 0 default).data.length =
          min (recPayloadSize vfile 0) (vfile.length - (512 * 0 + 32)) ∧
        (recPayloadSize vfile 0 ≤ 476 →
          (vres.blocks.getD 0 default).data.length ≤ 476)) :=
  have h : parseUF2 vfile = .ok vres := by decide
  ⟨h, by decide, uf2_payload_clamped_to_file vfile vres h 0 (by decide)⟩

/-- C10 (amended).  If the file size and every record's magic words are
valid and **every** flagged record carries family id `0` (in particular when
no record is flagged at all), `parseUF2` succeeds with `familyId = 0` and the
allow-list check is skipped — even though `0` is not in `validFamilies`, the
image is not rejected as an unknown family. -/
theorem uf2_zero_family_parses :
    ∀ d : List Nat, d.length % UF2_BLOCK_SIZE = 0 →
      (∀ j, j < d.length / UF2_BLOCK_SIZE →
        recMagic0 d j = UF2_MAGIC_START0 ∧ recMagic1 d j = UF2_MAGIC_START1 ∧
        recMagicEnd d j = UF2_MAGIC_END ∧
        (famFlagged d j → recFamily d j = 0)) →
      (parseUF2 d).map (fun r => r.familyId) = .ok 0 ∧
        (0 : Nat) ∉ validFamilies := by
  intro d hsz hvalid
  obtain ⟨bs, hb⟩ := parseBlocks_all_valid_ok d (d.length / UF2_BLOCK_SIZE) 0 []
    (fun j h1 h2 => hvalid j (by omega))
  have hok : parseUF2 d = .ok ⟨bs, 0, d.length / UF2_BLOCK_SIZE⟩ := by
    simp only [parseUF2]
    rw [if_neg (fun hc => hc hsz), hb]
    simp
  rw [hok]
  exact ⟨rfl, by decide⟩

/-- Two valid flagged records: record 0 carries family id `0`, record 1
carries family id `1`. -/
def cex10file : List Nat :=
  mkRecord UF2_FLAG_FAMILY 0x10000000 0 0 2 0 [] ++
    mkRecord UF2_FLAG_FAMILY 0x10000100 0 1 2 1 []

set_option maxRecDepth 32768 in
/-- C10 counterexample: the first flagged record's family id is zero, the
size and all magic words are valid, yet `parseUF2` does **not** succeed — a
later flagged record with a nonzero id is rejected as inconsistent. -/
theorem uf2_zero_first_family_still_rejected_cex :
    famFlagged cex10file 0 ∧ recFamily cex10file 0 = 0 ∧
      cex10file.length % UF2_BLOCK_SIZE = 0 ∧
      parseUF2 cex10file = .error (.inconsistentFamily 1) := by
  exact ⟨by decide, by decide, by decide, by decide⟩

/-- One valid record, flagged, with family id `0`. -/
def vfile10 : List Nat := mkRecord UF2_FLAG_FAMILY 0x10000000 0 0 1 0 []

set_option maxRecDepth 16384 in
/-- C10 witness. -/
theorem uf2_zero_family_parses_witness :
    vfile10.length % UF2_BLOCK_SIZE = 0 ∧
      ((parseUF2 vfile10).map (fun r => r.familyId) = .ok 0 ∧
        (0 : Nat) ∉ validFamilies) :=
  ⟨by decide, uf2_zero_family_parses vfile10 (by decide) (by decide)⟩

/-! ### Flash planner: `PicobootConnection._computeEraseRanges` -/

/-- An erase range `{addr, length}` as produced by `_computeEraseRanges`. -/
structure EraseRange where
  addr : Nat
  length : Nat
deriving DecidableEq, Repr

/-- The sectors one block adds to the `sectors` set:
`for (let s = startSector; s < endAddr; s += FLASH_SECTOR_SIZE)
sectors.add(s)` with `startSector = floor(addr / 4096) * 4096` and
`endAddr = addr + data.length`. -/
def blockSectors (b : UF2Block) : List Nat :=
  let startSector := b.addr / FLASH_SECTOR_SIZE * FLASH_SECTOR_SIZE
  let endAddr := b.addr + b.data.length
  (List.range ((endAddr - startSector + FLASH_SECTOR_SIZE - 1) / FLASH_SECTOR_SIZE)).map
    (fun k => startSector + FLASH_SECTOR_SIZE * k)

/-- `Array.from(sectors).sort((a, b) => a - b)`: the deduplicated sector set
in ascending order.  (The JS `Set` plus numeric sort produce the unique
strictly-ascending list with the same members; an insertion sort over the
deduplicated list computes exactly that list.) -/
def eraseSectorList (blocks : List UF2Block) : List Nat :=
  List.insertionSort (· ≤ ·) (blocks.flatMap blockSectors).dedup

/-- The merge loop of `_computeEraseRanges`: given the remaining sorted
sectors and the current `[rangeStart, rangeEnd)` in-progress range, either
extend the range by one sector or emit it and start a new one. -/
def mergeSectors : List Nat → Nat → Nat → List EraseRange
  | [], rangeStart, rangeEnd => [⟨rangeStart, rangeEnd - rangeStart⟩]
  | s :: rest, rangeStart, rangeEnd =>
    if s = rangeEnd then mergeSectors rest rangeStart (rangeEnd + FLASH_SECTOR_SIZE)
    else ⟨rangeStart, rangeEnd - rangeStart⟩ ::
      mergeSectors rest s (s + FLASH_SECTOR_SIZE)

/-- `PicobootConnection._computeEraseRanges`. -/
def computeEraseRanges (blocks : List UF2Block) : List EraseRange :=
  match eraseSectorList blocks with
  | [] => []
  | s0 :: rest => mergeSectors rest s0 (s0 + FLASH_SECTOR_SIZE)

theorem mem_blockSectors {b : UF2Block} {s : Nat} :
    s ∈ blockSectors b ↔
      s % 4096 = 0 ∧ b.addr / 4096 * 4096 ≤ s ∧ s < b.addr + b.data.length := by
  simp only [blockSectors, FLASH_SECTOR_SIZE, List.mem_map, List.mem_range]
  constructor
  · rintro ⟨k, hk, rfl⟩
    omega
  · rintro ⟨h1, h2, h3⟩
    exact ⟨(s - b.addr / 4096 * 4096) / 4096, by omega, by omega⟩

theorem mem_eraseSectorList {blocks : List UF2Block} {s : Nat} :
    s ∈ eraseSectorList blocks ↔ ∃ b ∈ blocks, s ∈ blockSectors b := by
  rw [eraseSectorList, (List.perm_insertionSort _ _).mem_iff, List.mem_dedup,
    List.mem_flatMap]

theorem eraseSectorList_sorted (blocks : List UF2Block) :
    (eraseSectorList blocks).Sorted (· < ·) :=
  (List.sorted_insertionSort _ _).lt_of_le
    ((List.perm_insertionSort _ _).nodup_iff.mpr (List.nodup_dedup _))

/-- Combined invariant of the merge loop: provided the pending sectors are
strictly ascending multiples of the sector size, all at or beyond the open
range's end, the emitted ranges are aligned, nonempty, strictly separated,
and cover exactly the open range together with one sector per pending
element. -/
theorem mergeSectors_props :
    ∀ (rest : List Nat) (rs re : Nat), rest.Pairwise (· < ·) →
      (∀ s ∈ rest, re ≤ s) → (∀ s ∈ rest, s % 4096 = 0) →
      rs % 4096 = 0 → re % 4096 = 0 → rs < re →
      (∀ r ∈ mergeSectors rest rs re,
        rs ≤ r.addr ∧ r.addr % 4096 = 0 ∧ r.length % 4096 = 0 ∧ 0 < r.length) ∧
      (mergeSectors rest rs re).Pairwise (fun r r' => r.addr + r.length < r'.addr) ∧
      (∀ x, (∃ r ∈ mergeSectors rest rs re, r.addr ≤ x ∧ x < r.addr + r.length) ↔
        (rs ≤ x ∧ x < re) ∨ ∃ s ∈ rest, s ≤ x ∧ x < s + 4096) := by
  intro rest
  induction rest with
  | nil =>
    intro rs re _ _ _ hrs hre hlt
    refine ⟨?_, ?_, ?_⟩
    · intro r hr
      simp only [mergeSectors, List.mem_singleton] at hr
      subst hr
      refine ⟨le_refl rs, hrs, ?_, ?_⟩ <;> dsimp only <;> omega
    · simp [mergeSectors]
    · intro x
      simp only [mergeSectors, List.mem_singleton]
      constructor
      · rintro ⟨r, rfl, h1, h2⟩
        dsimp only at h1 h2
        exact Or.inl ⟨h1, by omega⟩
      · rintro (⟨h1, h2⟩ | ⟨s, hs, _⟩)
        · exact ⟨⟨rs, re - rs⟩, rfl, h1, by dsimp only; omega⟩
        · exact absurd hs (List.not_mem_nil s)
  | cons s rest ih =>
    intro rs re hsort hge hdvd hrs hre hlt
    have hs_ge : re ≤ s := hge s (List.mem_cons_self s rest)
    have hs_dvd : s % 4096 = 0 := hdvd s (List.mem_cons_self s rest)
    have hsort' : rest.Pairwise (· < ·) := (List.pairwise_cons.mp hsort).2
    have hhead : ∀ t ∈ rest, s < t := (List.pairwise_cons.mp hsort).1
    have hdvd' : ∀ t ∈ rest, t % 4096 = 0 := fun t ht => hdvd t (List.mem_cons_of_mem s ht)
    have hge' : ∀ t ∈ rest, s + 4096 ≤ t := fun t ht => by
      have h1 := hhead t ht
      have h2 := hdvd' t ht
      omega
    by_cases hse : s = re
    · subst hse
      obtain ⟨hp, hpw, hcov⟩ := ih rs (s + 4096) hsort' hge' hdvd' hrs (by omega) (by omega)
      have heq : mergeSectors (s :: rest) rs s = mergeSectors rest rs (s + 4096) := by
        simp [mergeSectors, FLASH_SECTOR_SIZE]
      rw [heq]
      refine ⟨hp, hpw, fun x => ?_⟩
      rw [hcov]
      constructor
      · rintro (⟨h1, h2⟩ | h)
        · rcases Nat.lt_or_ge x s with hx | hx
          · exact Or.inl ⟨h1, hx⟩
          · exact Or.inr ⟨s, List.mem_cons_self s rest, hx, h2⟩
        · obtain ⟨t, ht, h1, h2⟩ := h
          exact Or.inr ⟨t, List.mem_cons_of_mem s ht, h1, h2⟩
      · rintro (⟨h1, h2⟩ | ⟨t, ht, h1, h2⟩)
        · exact Or.inl ⟨h1, by omega⟩
        · rcases List.mem_cons.mp ht with rfl | ht'
          · exact Or.inl ⟨by omega, by omega⟩
          · exact Or.inr ⟨t, ht', h1, h2⟩
    · have hs_gt : re < s := lt_of_le_of_ne hs_ge (fun h => hse h.symm)
      obtain ⟨hp, hpw, hcov⟩ := ih s (s + 4096) hsort' hge' hdvd' hs_dvd (by omega) (by omega)
      have heq : mergeSectors (s :: rest) rs re =
          ⟨rs, re - rs⟩ :: mergeSectors rest s (s + 4096) := by
        simp only [mergeSectors, FLASH_SECTOR_SIZE]
        rw [if_neg hse]
      rw [heq]
      refine ⟨?_, ?_, fun x => ?_⟩
      · intro r hr
        rcases List.mem_cons.mp hr with rfl | hr'
        · refine ⟨le_refl rs, hrs, ?_, ?_⟩ <;> dsimp only <;> omega
        · obtain ⟨ha, hb, hc, hd⟩ := hp r hr'
          exact ⟨by omega, hb, hc, hd⟩
      · rw [List.pairwise_cons]
        refine ⟨fun r hr => ?_, hpw⟩
        have := (hp r hr).1
        dsimp only
        omega
      · constructor
        · rintro ⟨r, hr, h1, h2⟩
          rcases List.mem_cons.mp hr with rfl | hr'
          · dsimp only at h1 h2
            exact Or.inl ⟨h1, by omega⟩
          · rcases (hcov x).mp ⟨r, hr', h1, h2⟩ with ⟨ha, hb⟩ | h
            · exact Or.inr ⟨s, List.mem_cons_self s rest, ha, hb⟩
            · obtain ⟨t, ht, ha, hb⟩ := h
              exact Or.inr ⟨t, List.mem_cons_of_mem s ht, ha, hb⟩
        · rintro (⟨h1, h2⟩ | ⟨t, ht, h1, h2⟩)
          · exact ⟨⟨rs, re - rs⟩, List.mem_cons_self _ _, h1, by dsimp only; omega⟩
          · rcases List.mem_cons.mp ht with rfl | ht'
            · obtain ⟨r, hr, ha, hb⟩ := (hcov x).mpr (Or.inl ⟨h1, h2⟩)
              exact ⟨r, List.mem_cons_of_mem _ hr, ha, hb⟩
            · obtain ⟨r, hr, ha, hb⟩ := (hcov x).mpr (Or.inr ⟨t, ht', h1, h2⟩)
              exact ⟨r, List.mem_cons_of_mem _ hr, ha, hb⟩

/-- Bridge: an address `x` is inside some collected sector iff `x`'s sector
is intersected by some block's `[addr, addr + data.length)` interval
(assuming every block has a nonempty payload). -/
theorem eraseSectorList_covers {blocks : List UF2Block}
    (hne : ∀ b ∈ blocks, 0 < b.data.length) (x : Nat) :
    (∃ s ∈ eraseSectorList blocks, s ≤ x ∧ x < s + 4096) ↔
      ∃ b ∈ blocks, ∃ a, b.addr ≤ a ∧ a < b.addr + b.data.length ∧
        a / 4096 = x / 4096 := by
  constructor
  · rintro ⟨s, hs, hx1, hx2⟩
    obtain ⟨b, hb, hbs⟩ := mem_eraseSectorList.mp hs
    obtain ⟨hd, h1, h2⟩ := mem_blockSectors.mp hbs
    have hblen := hne b hb
    rcases le_or_lt b.addr s with hc | hc
    · exact ⟨b, hb, s, hc, h2, by omega⟩
    · exact ⟨b, hb, b.addr, le_refl _, by omega, by omega⟩
  · rintro ⟨b, hb, a, h1, h2, h3⟩
    refine ⟨x / 4096 * 4096, ?_, by omega, by omega⟩
    refine mem_eraseSectorList.mpr ⟨b, hb, mem_blockSectors.mpr ⟨by omega, by omega, by omega⟩⟩

/-- C1 (amended).  For every list of blocks **with nonempty payloads**, the
erase ranges are pairwise non-overlapping (strictly separated, in fact),
sector-aligned in start address and length, and cover an address `x` exactly
when `x`'s sector is intersected by some block's `[addr, addr + data.length)`
interval — no sector outside that set, none inside it missed.  (A
zero-length block at an unaligned address breaks the exactness: its empty
interval intersects no sector, yet its containing sector is still erased —
see the counterexample.) -/
theorem planErase_ranges_spec :
    ∀ blocks : List UF2Block, (∀ b ∈ blocks, 0 < b.data.length) →
      (∀ r ∈ computeEraseRanges blocks,
        r.addr % FLASH_SECTOR_SIZE = 0 ∧ r.length % FLASH_SECTOR_SIZE = 0 ∧
          0 < r.length) ∧
      (computeEraseRanges blocks).Pairwise
        (fun r r' => r.addr + r.length < r'.addr) ∧
      (∀ x, (∃ r ∈ computeEraseRanges blocks, r.addr ≤ x ∧ x < r.addr + r.length) ↔
        ∃ b ∈ blocks, ∃ a, b.addr ≤ a ∧ a < b.addr + b.data.length ∧
          a / FLASH_SECTOR_SIZE = x / FLASH_SECTOR_SIZE) := by
  intro blocks hne
  have hSec : (FLASH_SECTOR_SIZE : Nat) = 4096 := rfl
  rw [hSec]
  cases hlist : eraseSectorList blocks with
  | nil =>
    refine ⟨by simp [computeEraseRanges, hlist], by simp [computeEraseRanges, hlist], fun x => ?_⟩
    rw [show computeEraseRanges blocks = [] by simp [computeEraseRanges, hlist]]
    rw [← eraseSectorList_covers hne x, hlist]
    simp
  | cons s0 rest =>
    have hsorted := eraseSectorList_sorted blocks
    rw [hlist] at hsorted
    have hs0rest := List.pairwise_cons.mp hsorted
    have hmem : ∀ s ∈ eraseSectorList blocks, s % 4096 = 0 := by
      intro s hs
      obtain ⟨b, _, hbs⟩ := mem_eraseSectorList.mp hs
      exact (mem_blockSectors.mp hbs).1
    rw [hlist] at hmem
    have hdvd0 : s0 % 4096 = 0 := hmem s0 (List.mem_cons_self _ _)
    have hdvd' : ∀ t ∈ rest, t % 4096 = 0 := fun t ht =>
      hmem t (List.mem_cons_of_mem s0 ht)
    have hge : ∀ t ∈ rest, s0 + 4096 ≤ t := fun t ht => by
      have h1 := hs0rest.1 t ht
      have h2 := hdvd' t ht
      omega
    obtain ⟨hp, hpw, hcov⟩ := mergeSectors_props rest s0 (s0 + 4096) hs0rest.2
      hge hdvd' hdvd0 (by omega) (by omega)
    have hrngs : computeEraseRanges blocks = mergeSectors rest s0 (s0 + 4096) := by
      simp [computeEraseRanges, hlist, FLASH_SECTOR_SIZE]
    rw [hrngs]
    refine ⟨fun r hr => ?_, hpw, fun x => ?_⟩
    · obtain ⟨_, hb, hc, hd⟩ := hp r hr
      exact ⟨hb, hc, hd⟩
    · rw [hcov x, ← eraseSectorList_covers hne x, hlist]
      constructor
      · rintro (⟨h1, h2⟩ | ⟨t, ht, h1, h2⟩)
        · exact ⟨s0, List.mem_cons_self _ _, h1, h2⟩
        · exact ⟨t, List.mem_cons_of_mem s0 ht, h1, h2⟩
      · rintro ⟨t, ht, h1, h2⟩
        rcases List.mem_cons.mp ht with rfl | ht'
        · exact Or.inl ⟨h1, h2⟩
        · exact Or.inr ⟨t, ht', h1, h2⟩

/-- C1 counterexample: a single zero-length block at the unaligned address 1
produces the erase range `[0, 4096)` even though the block's interval
`[1, 1)` is empty and intersects no sector — the ranges cover a sector
outside the set of sectors touched by the blocks, refuting exactness for
arbitrary block lists. -/
theorem planErase_zero_length_block_cex :
    computeEraseRanges [⟨1, [], 0, 0⟩] = [⟨0, 4096⟩] ∧
      ¬ ((∃ r ∈ computeEraseRanges [⟨1, [], 0, 0⟩],
            r.addr ≤ 0 ∧ 0 < r.addr + r.length) ↔
        ∃ b ∈ [(⟨1, [], 0, 0⟩ : UF2Block)], ∃ a, b.addr ≤ a ∧
          a < b.addr + b.data.length ∧
          a / FLASH_SECTOR_SIZE = 0 / FLASH_SECTOR_SIZE) := by
  have h1 : computeEraseRanges [⟨1, [], 0, 0⟩] = [⟨0, 4096⟩] := by decide
  refine ⟨h1, fun hiff => ?_⟩
  obtain ⟨b, hb, a, ha1, ha2, _⟩ :=
    hiff.mp ⟨⟨0, 4096⟩, by rw [h1]; exact List.mem_singleton.mpr rfl, by simp⟩
  rw [List.mem_singleton] at hb
  subst hb
  simp at ha1 ha2
  omega

/-- C1 witness: a single three-byte block at `0x3064`. -/
theorem planErase_ranges_spec_witness :
    (∀ b ∈ [(⟨12388, [7, 7, 7], 0, 0⟩ : UF2Block)], 0 < b.data.length) ∧
      ((∀ r ∈ computeEraseRanges [⟨12388, [7, 7, 7], 0, 0⟩],
        r.addr % FLASH_SECTOR_SIZE = 0 ∧ r.length % FLASH_SECTOR_SIZE = 0 ∧
          0 < r.length) ∧
      (computeEraseRanges [⟨12388, [7, 7, 7], 0, 0⟩]).Pairwise
        (fun r r' => r.addr + r.length < r'.addr) ∧
      (∀ x, (∃ r ∈ computeEraseRanges [⟨12388, [7, 7, 7], 0, 0⟩],
          r.addr ≤ x ∧ x < r.addr + r.length) ↔
        ∃ b ∈ [(⟨12388, [7, 7, 7], 0, 0⟩ : UF2Block)], ∃ a, b.addr ≤ a ∧
          a < b.addr + b.data.length ∧
          a / FLASH_SECTOR_SIZE = x / FLASH_SECTOR_SIZE)) :=
  ⟨by decide, planErase_ranges_spec [⟨12388, [7, 7, 7], 0, 0⟩] (by decide)⟩

/-! ### Memory map and binary-info extractor (`src/unnamed/part_000`) -/

/-- A memory-map segment `{addr, data}` (a parsed UF2 block or a raw flash
read chunk). -/
structure Segment where
  addr : Nat
  data : List Nat
deriving DecidableEq, Repr

/-- `_buildMemoryMap`: `[...blocks].sort((a, b) => a.addr - b.addr)` — a
stable ascending sort by segment address (insertion sort is such a sort). -/
def buildMemoryMap (blocks : List Segment) : List Segment :=
  List.insertionSort (fun a b => a.addr ≤ b.addr) blocks

/-- `_findSegment`: the source runs a binary search over the addr-sorted
array whose loop exit (per its own comment) leaves `hi` at the last index
with `segs[hi].addr <= addr`, then returns that segment iff it contains
`addr`.  On the (sorted) lists it is invoked with, that last index is
computed here as the last element of the `addr ≤`-filtered list. -/
def findSegment (segs : List Segment) (addr : Nat) : Option Segment :=
  match (segs.filter (fun s => s.addr ≤ addr)).getLast? with
  | none => none
  | some seg =>
    if addr < seg.addr + seg.data.length then some seg else none

/-- The while-loop body of `_readAt`: each iteration reads
`min remaining avail` bytes out of the segment containing the cursor, or
fails if no segment contains it.  A found segment always yields at least one
byte (`findSegment` guarantees containment), so `size` rounds of fuel make
the fuel-exhaustion branch unreachable. -/
def readAtAux (segs : List Segment) : Nat → Nat → Nat → Option (List Nat)
  | 0, _, remaining => if remaining = 0 then some [] else none
  | fuel + 1, addr, remaining =>
    if remaining = 0 then some []
    else
      match findSegment segs addr with
      | none => none
      | some seg =>
        let offsetInSeg := addr - seg.addr
        let avail := seg.data.length - offsetInSeg
        let toRead := min remaining avail
        match readAtAux segs fuel (addr + toRead) (remaining - toRead) with
        | none => none
        | some rest => some ((seg.data.drop offsetInSeg).take toRead ++ rest)

/-- `_readAt(segments, addr, size)`. -/
def readAt (segs : List Segment) (addr size : Nat) : Option (List Nat) :=
  readAtAux segs size addr size

/-- `_readString(segments, addr)`: read 512 bytes, then cut at the first
null (`bytes.indexOf(0)`), keeping everything when no null occurs. -/
def readString (segs : List Segment) (addr : Nat) : Option (List Nat) :=
  match readAt segs addr 512 with
  | none => none
  | some bytes => some (bytes.takeWhile (fun b => b ≠ 0))

/-- One `{flashStart, ramStart, ramEnd}` triple of the RAM→flash copy
table. -/
structure AddrMapping where
  flashStart : Nat
  ramStart : Nat
  ramEnd : Nat
deriving DecidableEq, Repr

/-- `_remapAddress`: translate through the first window containing `addr`,
else return `addr` unchanged. -/
def remapAddress (addr : Nat) : List AddrMapping → Nat
  | [] => addr
  | m :: ms =>
    if m.ramStart ≤ addr ∧ addr < m.ramEnd then m.flashStart + (addr - m.ramStart)
    else remapAddress addr ms

/-- The `for (let safety = 0; safety < 10; safety++)` walk over the mapping
table: stop on an unreadable entry, a zero flash-source entry, or after 10
entries. -/
def mappingWalk (segs : List Segment) : Nat → Nat → List AddrMapping
  | _, 0 => []
  | addr, safety + 1 =>
    match readAt segs addr 12 with
    | none => []
    | some eb =>
      if readU32 eb 0 = 0 then []
      else ⟨readU32 eb 0, readU32 eb 4, readU32 eb 8⟩ ::
        mappingWalk segs (addr + 12) safety

/-- The `addrMappings` loading step of `extractBinaryInfo`: the walk runs
only when `mappingTableAddr` is truthy (non-zero). -/
def loadAddrMappings (segs : List Segment) (mappingTableAddr : Nat) :
    List AddrMapping :=
  if mappingTableAddr = 0 then [] else mappingWalk segs mappingTableAddr 10

/-- The header-scan success condition at word window `i`: the 5-word
signature `[MARKER_START, biStart, biEnd, mappingTable, MARKER_END]` with
`biEnd > biStart` and both 4-byte aligned. -/
def windowMatch (hb : List Nat) (i : Nat) : Prop :=
  readU32 hb (4 * i) = BINARY_INFO_MARKER_START ∧
    readU32 hb (4 * (i + 4)) = BINARY_INFO_MARKER_END ∧
    readU32 hb (4 * (i + 1)) < readU32 hb (4 * (i + 2)) ∧
    readU32 hb (4 * (i + 1)) % 4 = 0 ∧ readU32 hb (4 * (i + 2)) % 4 = 0

instance (hb : List Nat) (i : Nat) : Decidable (windowMatch hb i) := by
  unfold windowMatch; infer_instance

/-- The `for (let i = 0; i + 4 < MAX_WORDS; i++)` scan over the 64-word
header area: the first fully matching window yields
`(biStart, biEnd, mappingTableAddr)`; a marker pair failing the
alignment/order side conditions does not set `found` and scanning
continues. -/
def scanHeader (hb : List Nat) : Option (Nat × Nat × Nat) :=
  (List.range 60).findSome? fun i =>
    if windowMatch hb i then
      some (readU32 hb (4 * (i + 1)), readU32 hb (4 * (i + 2)),
        readU32 hb (4 * (i + 3)))
    else none

/-- The result record of `extractBinaryInfo`; the string values are kept as
raw byte lists. -/
structure BinInfo where
  board : Option (List Nat)
  variant : Option (List Nat)
  version : Option (List Nat)
  git : Option (List Nat)
  isPicoCTR : Bool
deriving DecidableEq, Repr

/-- `{ board: null, variant: null, version: null, git: null,
isPicoCTR: false }`. -/
def allNullInfo : BinInfo := ⟨none, none, none, none, false⟩

/-- Accumulator mirroring the mutable locals of the entry-visiting loop. -/
structure BiAccum where
  programName : Option (List Nat)
  programVersion : Option (List Nat)
  picoBoard : Option (List Nat)
  sdkVersion : Option (List Nat)
  programFeatures : List (List Nat)
deriving DecidableEq, Repr

/-- One iteration of the entry-visiting loop of `extractBinaryInfo`:
dereference the pointer through the remap table, check the
`{type, tag}` core header, and on an `ID_AND_STRING`/"RP" entry read the id,
remap and read the string value, and classify it by id.  A null pointer, a
failed read, or a falsy (empty) string skips the entry. -/
def processEntry (segs : List Segment) (mappings : List AddrMapping)
    (acc : BiAccum) (ptr : Nat) : BiAccum :=
  if ptr = 0 then acc
  else
    let entryAddr := remapAddress ptr mappings
    match readAt segs entryAddr 4 with
    | none => acc
    | some coreBytes =>
      let ty := coreBytes.getD 0 0 + 256 * coreBytes.getD 1 0
      let tag := coreBytes.getD 2 0 + 256 * coreBytes.getD 3 0
      if ty = BI_TYPE_ID_AND_STRING ∧ tag = BINARY_INFO_TAG_RP then
        match readAt segs entryAddr 12 with
        | none => acc
        | some entryBytes =>
          let id := readU32 entryBytes 4
          let valuePtr := readU32 entryBytes 8
          match readString segs (remapAddress valuePtr mappings) with
          | none => acc
          | some value =>
            if value = [] then acc
            else if id = BINARY_INFO_ID_RP_PROGRAM_NAME then
              { acc with programName := some value }
            else if id = BINARY_INFO_ID_RP_PROGRAM_VERSION_STRING then
              { acc with programVersion := some value }
            else if id = BINARY_INFO_ID_RP_PROGRAM_FEATURE then
              { acc with programFeatures := acc.programFeatures ++ [value] }
            else if id = BINARY_INFO_ID_RP_PICO_BOARD then
              { acc with picoBoard := some value }
            else if id = BINARY_INFO_ID_RP_SDK_VERSION then
              { acc with sdkVersion := some value }
            else acc
      else acc

/-- The `for (let i = 0; i < count; i++)` loop over the pointer array. -/
def visitEntries (segs : List Segment) (mappings : List AddrMapping)
    (ptrBytes : List Nat) (count : Nat) : BiAccum :=
  (List.range count).foldl
    (fun acc i => processEntry segs mappings acc (readU32 ptrBytes (4 * i)))
    ⟨none, none, none, none, []⟩

/-- ASCII bytes of `"Board: "`. -/
def boardPrefixStr : List Nat := [66, 111, 97, 114, 100, 58, 32]

/-- ASCII bytes of `"Variant: "`. -/
def variantPrefixStr : List Nat := [86, 97, 114, 105, 97, 110, 116, 58, 32]

/-- ASCII bytes of `"Git: "`. -/
def gitPrefixStr : List Nat := [71, 105, 116, 58, 32]

/-- ASCII bytes of `"picoctr"`. -/
def picoctrTok : List Nat := [112, 105, 99, 111, 99, 116, 114]

/-- ASCII bytes of `"agc"`. -/
def agcTok : List Nat := [97, 103, 99]

/-- ASCII bytes of `"americade"`. -/
def americadeTok : List Nat := [97, 109, 101, 114, 105, 99, 97, 100, 101]

/-- ASCII bytes of `"acustomarcade"`. -/
def acustomarcadeTok : List Nat :=
  [97, 99, 117, 115, 116, 111, 109, 97, 114, 99, 97, 100, 101]

/-- `String.prototype.trimStart` on the byte model: strip ASCII whitespace
(multi-byte Unicode whitespace is out of scope of the byte-level model). -/
def trimStartBytes (l : List Nat) : List Nat :=
  l.dropWhile (fun b => b = 9 ∨ b = 10 ∨ b = 11 ∨ b = 12 ∨ b = 13 ∨ b = 32)

/-- `getFeatureValue(prefix)`: first feature starting with the prefix, with
the prefix stripped and the remainder trim-started. -/
def getFeatureValue (features : List (List Nat)) (pre : List Nat) :
    Option (List Nat) :=
  match features.find? (fun f => pre.isPrefixOf f) with
  | none => none
  | some f => some (trimStartBytes (f.drop pre.length))

/-- JavaScript truthiness of a string option: `null` and `""` are falsy. -/
def jsTruthy (o : Option (List Nat)) : Option (List Nat) :=
  match o with
  | some [] => none
  | some v => some v
  | none => none

/-- `a || b` over string options under JS truthiness (a final `|| null`
collapses to this model's `none`). -/
def jsOrElse (a b : Option (List Nat)) : Option (List Nat) :=
  match jsTruthy a with
  | some v => some v
  | none => jsTruthy b

/-- `c.toLowerCase()` byte-wise (ASCII). -/
def toLowerByte (c : Nat) : Nat := if 65 ≤ c ∧ c ≤ 90 then c + 32 else c

/-- The `isPicoCTR` heuristic: board truthy and its lowercase form contains
one of the four product-family substrings. -/
def isPicoCTRBoard (board : Option (List Nat)) : Bool :=
  match board with
  | none => false
  | some b =>
    decide (List.IsInfix picoctrTok (b.map toLowerByte)) ||
      decide (List.IsInfix agcTok (b.map toLowerByte)) ||
      decide (List.IsInfix americadeTok (b.map toLowerByte)) ||
      decide (List.IsInfix acustomarcadeTok (b.map toLowerByte))

/-- The scan base of `extractBinaryInfo`: the lowest mapped address, bumped
past the 256-byte boot2 stage when it equals the RP2040 flash origin. -/
def scanBase (blocks : List Segment) : Nat :=
  let base0 := ((buildMemoryMap blocks).headD ⟨0, []⟩).addr
  if base0 = RP2040_FLASH_START then base0 + 0x100 else base0

/-- The 64-word header area actually scanned (defaulting to `[]` when not
fully mapped — in that case extraction bails out before scanning). -/
def scanBytes (blocks : List Segment) : List Nat :=
  (readAt (buildMemoryMap blocks) (scanBase blocks) 256).getD []

/-- `extractBinaryInfo` (the pointer-walking variant of
`src/unnamed/part_000`).  The JS guard `if (!base && base !== 0)` can never
fire on a numeric address and is dead in this model. -/
def extractBinaryInfo (blocks : List Segment) : BinInfo :=
  if blocks.isEmpty then allNullInfo
  else
    let segments := buildMemoryMap blocks
    match readAt segments (scanBase blocks) 256 with
    | none => allNullInfo
    | some hb =>
      match scanHeader hb with
      | none => allNullInfo
      | some (biStart, biEnd, mappingTableAddr) =>
        let addrMappings := loadAddrMappings segments mappingTableAddr
        let count := (biEnd - biStart) / 4
        if 1000 < count then allNullInfo
        else
          match readAt segments (remapAddress biStart addrMappings) (count * 4) with
          | none => allNullInfo
          | some ptrBytes =>
            let acc := visitEntries segments addrMappings ptrBytes count
            let board := jsOrElse (getFeatureValue acc.programFeatures boardPrefixStr)
              acc.picoBoard
            ⟨board,
              jsTruthy (getFeatureValue acc.programFeatures variantPrefixStr),
              jsTruthy acc.programVersion,
              jsTruthy (getFeatureValue acc.programFeatures gitPrefixStr),
              isPicoCTRBoard board⟩

/-! ### C5/C6/C7 theorems -/

theorem scanHeader_eq_none (hb : List Nat)
    (h : ∀ i, i < 60 → ¬ windowMatch hb i) : scanHeader hb = none := by
  rw [scanHeader, List.findSome?_eq_none_iff]
  intro i hi
  rw [if_neg (h i (List.mem_range.mp hi))]

/-- C5.  On a non-empty block list in which no window of the scanned 64-word
area matches the 5-word signature (markers at distance 4, `biEnd > biStart`,
both 4-byte aligned), `extractBinaryInfo` returns the all-null,
`isPicoCTR = false` result; being a total function, it cannot throw. -/
theorem extract_no_marker_all_null :
    ∀ blocks : List Segment, blocks ≠ [] →
      (∀ i, i < 60 → ¬ windowMatch (scanBytes blocks) i) →
      extractBinaryInfo blocks = allNullInfo := by
  intro blocks _ h
  by_cases hemp : blocks.isEmpty
  · simp [extractBinaryInfo, hemp]
  · cases hread : readAt (buildMemoryMap blocks) (scanBase blocks) 256 with
    | none => simp only [extractBinaryInfo, if_neg hemp, hread]
    | some hb =>
      have hhb : scanBytes blocks = hb := by
        rw [scanBytes, hread]
        rfl
      simp only [extractBinaryInfo, if_neg hemp, hread,
        scanHeader_eq_none hb (hhb ▸ h)]

/-- A single 300-byte all-zero segment at address 0. -/
def w5blocks : List Segment := [⟨0, List.replicate 300 0⟩]

set_option maxRecDepth 8192 in
/-- C5 witness. -/
theorem extract_no_marker_all_null_witness :
    w5blocks ≠ [] ∧ (∀ i, i < 60 → ¬ windowMatch (scanBytes w5blocks) i) ∧
      extractBinaryInfo w5blocks = allNullInfo :=
  ⟨by decide, by decide,
    extract_no_marker_all_null w5blocks (by decide) (by decide)⟩

/-- Fuel-generic characterisation of the mapping-table walk. -/
theorem mappingWalk_spec (segs : List Segment) :
    ∀ (fuel addr : Nat),
      (mappingWalk segs addr fuel).length ≤ fuel ∧
      (∀ k, k < (mappingWalk segs addr fuel).length →
        ∃ eb, readAt segs (addr + 12 * k) 12 = some eb ∧ readU32 eb 0 ≠ 0 ∧
          (mappingWalk segs addr fuel).getD k ⟨0, 0, 0⟩ =
            ⟨readU32 eb 0, readU32 eb 4, readU32 eb 8⟩) ∧
      ((mappingWalk segs addr fuel).length < fuel →
        readAt segs (addr + 12 * (mappingWalk segs addr fuel).length) 12 = none ∨
        readU32 ((readAt segs
          (addr + 12 * (mappingWalk segs addr fuel).length) 12).getD []) 0 = 0) := by
  intro fuel
  induction fuel with
  | zero =>
    intro addr
    refine ⟨by simp [mappingWalk], ?_, ?_⟩ <;> simp [mappingWalk]
  | succ fuel ih =>
    intro addr
    cases hr : readAt segs addr 12 with
    | none =>
      have hw : mappingWalk segs addr (fuel + 1) = [] := by
        rw [mappingWalk, hr]
      rw [hw]
      refine ⟨by simp, by simp, fun _ => ?_⟩
      simp only [List.length_nil, Nat.mul_zero, Nat.add_zero]
      exact Or.inl hr
    | some eb =>
      by_cases h0 : readU32 eb 0 = 0
      · have hw : mappingWalk segs addr (fuel + 1) = [] := by
          simp only [mappingWalk, hr]
          rw [if_pos h0]
        rw [hw]
        refine ⟨by simp, by simp, fun _ => ?_⟩
        simp only [List.length_nil, Nat.mul_zero, Nat.add_zero]
        rw [hr]
        exact Or.inr h0
      · have hw : mappingWalk segs addr (fuel + 1) =
            ⟨readU32 eb 0, readU32 eb 4, readU32 eb 8⟩ ::
              mappingWalk segs (addr + 12) fuel := by
          simp only [mappingWalk, hr]
          rw [if_neg h0]
        obtain ⟨ihlen, ihmem, ihstop⟩ := ih (addr + 12)
        rw [hw]
        refine ⟨by simpa using ihlen, ?_, ?_⟩
        · intro k hk
          cases k with
          | zero =>
            refine ⟨eb, ?_, h0, rfl⟩
            simpa using hr
          | succ j =>
            simp only [List.length_cons] at hk
            obtain ⟨eb', h1, h2, h3⟩ := ihmem j (by omega)
            refine ⟨eb', ?_, h2, by simpa using h3⟩
            rw [show addr + 12 * (j + 1) = addr + 12 + 12 * j by omega]
            exact h1
        · intro hlt
          simp only [List.length_cons] at hlt ⊢
          rw [show addr + 12 * ((mappingWalk segs (addr + 12) fuel).length + 1) =
            addr + 12 + 12 * (mappingWalk segs (addr + 12) fuel).length by omega]
          exact ihstop (by omega)

theorem remapAddress_find (a : Nat) :
    ∀ ms : List AddrMapping,
      (ms.find? (fun m => decide (m.ramStart ≤ a) && decide (a < m.ramEnd)) = none →
        remapAddress a ms = a) ∧
      (∀ m, ms.find? (fun m => decide (m.ramStart ≤ a) && decide (a < m.ramEnd)) =
          some m →
        remapAddress a ms = m.flashStart + (a - m.ramStart)) := by
  intro ms
  induction ms with
  | nil => exact ⟨fun _ => rfl, fun m h => by simp at h⟩
  | cons m ms ih =>
    by_cases hm : m.ramStart ≤ a ∧ a < m.ramEnd
    · have hf : (decide (m.ramStart ≤ a) && decide (a < m.ramEnd)) = true := by
        simp [hm.1, hm.2]
      rw [remapAddress, if_pos hm]
      constructor
      · intro h
        simp only [List.find?, hf] at h
        exact Option.noConfusion h
      · intro m' h
        simp only [List.find?, hf] at h
        cases h
        rfl
    · have hf : (decide (m.ramStart ≤ a) && decide (a < m.ramEnd)) = false := by
        by_cases h1 : m.ramStart ≤ a
        · have h2 : ¬ a < m.ramEnd := fun h2 => hm ⟨h1, h2⟩
          simp [h2]
        · simp [h1]
      rw [remapAddress, if_neg hm]
      constructor
      · intro h
        simp only [List.find?, hf] at h
        exact ih.1 h
      · intro m' h
        simp only [List.find?, hf] at h
        exact ih.2 m' h

/-- C6.  (a) The mapping table is walked only when `remapTableAddr` is
non-zero; (b) the walk consumes successive readable 12-byte triples with a
non-zero flash source, at most 10 of them, and stops early exactly at an
unreadable entry or a zero flash-source entry; (c) `_remapAddress` translates
through the **first** recorded window `[ramStart, ramEnd)` containing the
address, and leaves addresses outside every window unchanged. -/
theorem remap_table_walk_spec :
    (∀ segs : List Segment, loadAddrMappings segs 0 = []) ∧
    (∀ (segs : List Segment) (tableAddr : Nat),
      (loadAddrMappings segs tableAddr).length ≤ 10 ∧
      (∀ k, k < (loadAddrMappings segs tableAddr).length →
        ∃ eb, readAt segs (tableAddr + 12 * k) 12 = some eb ∧
          readU32 eb 0 ≠ 0 ∧
          (loadAddrMappings segs tableAddr).getD k ⟨0, 0, 0⟩ =
            ⟨readU32 eb 0, readU32 eb 4, readU32 eb 8⟩) ∧
      (tableAddr ≠ 0 → (loadAddrMappings segs tableAddr).length < 10 →
        readAt segs (tableAddr + 12 * (loadAddrMappings segs tableAddr).length)
            12 = none ∨
        readU32 ((readAt segs
          (tableAddr + 12 * (loadAddrMappings segs tableAddr).length)
            12).getD []) 0 = 0)) ∧
    (∀ (a : Nat) (ms : List AddrMapping),
      (ms.find? (fun m => decide (m.ramStart ≤ a) && decide (a < m.ramEnd)) = none →
        remapAddress a ms = a) ∧
      (∀ m, ms.find? (fun m => decide (m.ramStart ≤ a) && decide (a < m.ramEnd)) =
          some m →
        remapAddress a ms = m.flashStart + (a - m.ramStart))) := by
  refine ⟨fun segs => by simp [loadAddrMappings], fun segs tableAddr => ?_,
    remapAddress_find⟩
  by_cases h0 : tableAddr = 0
  · subst h0
    refine ⟨by simp [loadAddrMappings], by simp [loadAddrMappings],
      fun h _ => absurd rfl h⟩
  · have hl : loadAddrMappings segs tableAddr = mappingWalk segs tableAddr 10 := by
      rw [loadAddrMappings, if_neg h0]
    obtain ⟨h1, h2, h3⟩ := mappingWalk_spec segs 10 tableAddr
    rw [hl]
    exact ⟨h1, h2, fun _ => h3⟩

/-- A 24-byte mapping table at address 100: one live entry then a
zero-source terminator. -/
def w6segs : List Segment :=
  [⟨100, u32le 1280 ++ u32le 8192 ++ u32le 8448 ++ u32le 0 ++ u32le 0 ++ u32le 0⟩]

/-- The single mapping recorded in `w6segs`. -/
def w6map : AddrMapping := ⟨1280, 8192, 8448⟩

/-- C6 witness. -/
theorem remap_table_walk_spec_witness :
    loadAddrMappings w6segs 0 = [] ∧
      (List.find? (fun m => decide (m.ramStart ≤ 8272) && decide (8272 < m.ramEnd))
          [w6map] = some w6map) ∧
      remapAddress 8272 [w6map] = w6map.flashStart + (8272 - w6map.ramStart) :=
  ⟨remap_table_walk_spec.1 w6segs, by decide,
    (remap_table_walk_spec.2.2 8272 [w6map]).2 w6map (by decide)⟩

theorem readAtAux_length (segs : List Segment) :
    ∀ (fuel addr remaining : Nat) (bs : List Nat),
      readAtAux segs fuel addr remaining = some bs → bs.length = remaining := by
  intro fuel
  induction fuel with
  | zero =>
    intro addr remaining bs h
    rw [readAtAux] at h
    split at h
    · cases h
      simp_all
    · cases h
  | succ fuel ih =>
    intro addr remaining bs h
    rw [readAtAux] at h
    split at h
    next hrem =>
      cases h
      simp [hrem]
    next hrem =>
      split at h
      · exact Option.noConfusion h
      next seg hseg =>
        dsimp only at h
        split at h
        · exact Option.noConfusion h
        next rest hrest =>
          cases h
          have hr := ih _ _ _ hrest
          simp only [List.length_append, List.length_take, List.length_drop, hr]
          omega

/-- C7 (amended).  When all 512 bytes from `addr` are mapped, `_readString`
returns the bytes up to (excluding) the first null terminator — at most 512
bytes, all non-null, a prefix of the mapped bytes, with a null at the cut
position whenever the cut is strictly inside the buffer — truncating at 512
rather than failing when no terminator occurs.  But when fewer than 512
bytes are mapped after `addr`, `_readAt` fails and `_readString` returns
null even if a terminated string lies fully inside the mapped region (see
the counterexample). -/
theorem readString_cap_spec :
    ∀ (segs : List Segment) (addr : Nat),
      (∀ bytes, readAt segs addr 512 = some bytes →
        readString segs addr = some (bytes.takeWhile (fun b => b ≠ 0)) ∧
        bytes.length = 512 ∧
        (bytes.takeWhile (fun b => b ≠ 0)).length ≤ 512 ∧
        (∀ b ∈ bytes.takeWhile (fun b => b ≠ 0), b ≠ 0) ∧
        ((bytes.takeWhile (fun b => b ≠ 0)).length < bytes.length →
          bytes.getD (bytes.takeWhile (fun b => b ≠ 0)).length 0 = 0) ∧
        List.IsPrefix (bytes.takeWhile (fun b => b ≠ 0)) bytes) ∧
      (readAt segs addr 512 = none → readString segs addr = none) := by
  intro segs addr
  constructor
  · intro bytes h
    have hlen : bytes.length = 512 := readAtAux_length segs 512 addr 512 bytes h
    refine ⟨by rw [readString, h], hlen, ?_, ?_, ?_, List.takeWhile_prefix _⟩
    · calc (bytes.takeWhile (fun b => b ≠ 0)).length
          ≤ bytes.length := (List.takeWhile_sublist _).length_le
        _ = 512 := hlen
    · intro b hb
      simpa using List.mem_takeWhile_imp hb
    · clear h hlen
      induction bytes with
      | nil => simp
      | cons x xs ihx =>
        by_cases hx : x = 0
        · intro _
          simp [List.takeWhile_cons, hx]
        · have hxb : (decide (x ≠ 0)) = true := by simp [hx]
          simp only [List.takeWhile_cons, hxb, if_true, List.length_cons]
          intro hlt
          simpa using ihx (by omega)
  · intro h
    rw [readString, h]

/-- A 4-byte segment holding the terminated string `"AB\0"` plus one byte. -/
def cex7segs : List Segment := [⟨0, [65, 66, 0, 67]⟩]

/-- C7 counterexample: the terminated string at address 0 lies fully inside
mapped memory (readable as `[65, 66, 0]`), fewer than 512 bytes before the
end of the mapped region — yet `_readString` returns null, because
`_readAt(addr, 512)` demands all 512 bytes to be mapped. -/
theorem readString_near_end_cex :
    readAt cex7segs 0 3 = some [65, 66, 0] ∧ readString cex7segs 0 = none := by
  exact ⟨by decide, by decide⟩

/-- A 600-byte segment of `"A"`s: no terminator in the first 512 bytes. -/
def w7segs : List Segment := [⟨0, List.replicate 600 65⟩]

set_option maxRecDepth 8192 in
/-- C7 witness: with no terminator in the 512-byte window the string is
truncated at the 512-byte cap rather than failing. -/
theorem readString_cap_spec_witness :
    readAt w7segs 0 512 = some (List.replicate 512 65) ∧
      readString w7segs 0 =
        some ((List.replicate 512 65).takeWhile (fun b => b ≠ 0)) ∧
      ((List.replicate 512 65).takeWhile (fun b => b ≠ 0)).length ≤ 512 :=
  have h : readAt w7segs 0 512 = some (List.replicate 512 65) := by decide
  ⟨h, ((readString_cap_spec w7segs 0).1 (List.replicate 512 65) h).1,
    ((readString_cap_spec w7segs 0).1 (List.replicate 512 65) h).2.2.1⟩

/-! ### Command channel: `_sendCommandOnce` phases and `_sendCommand` retry

The JS `data` parameter of `_sendCommandOnce` is an `ArrayBuffer` for
host-to-device writes (`isDeviceToHost = false`), a number (the expected
receive length) for device-to-host reads (`isDeviceToHost = true`), or
`null`; `CmdData` fuses the parameter with the flag exactly as every call
site pairs them. -/

/-- The data-phase argument of one command exchange. -/
inductive CmdData where
  | noData
  | writeData (bytes : List Nat)
  | readLen (n : Nat)
deriving DecidableEq, Repr

/-- Observable bulk transfers of a single `_sendCommandOnce` run. -/
inductive UsbAction where
  /-- the 32-byte command frame, bulk OUT, carrying this token -/
  | commandOut (token : Nat)
  /-- host-to-device data phase (`transferOut`) of `n` bytes -/
  | dataOut (n : Nat)
  /-- device-to-host data phase (`transferIn`) of `n` bytes -/
  | dataIn (n : Nat)
  /-- the zero-length bulk OUT acknowledgment -/
  | ackOut
  /-- the 1-byte bulk IN acknowledgment -/
  | ackIn
deriving DecidableEq, Repr

/-- Step 2 of `_sendCommandOnce`: a read happens iff
`isDeviceToHost && typeof data === 'number' && data > 0`; a write happens iff
`!isDeviceToHost && data && data.byteLength > 0` (an `ArrayBuffer` is always
truthy, the number `0` is falsy). -/
def dataActions : CmdData → List UsbAction
  | .noData => []
  | .writeData b => if 0 < b.length then [.dataOut b.length] else []
  | .readLen n => if 0 < n then [.dataIn n] else []

/-- Step 3 of `_sendCommandOnce`: `cmdId & 0x80` picks the zero-length OUT
acknowledgment, anything else the 1-byte IN acknowledgment. -/
def ackAction (cmdId : Nat) : UsbAction :=
  if cmdId &&& 0x80 ≠ 0 then .ackOut else .ackIn

/-- The bulk-transfer phases of one `_sendCommandOnce` run: command frame,
then the data phase, then the acknowledgment. -/
def oncePhaseTrace (cmdId : Nat) (d : CmdData) (token : Nat) : List UsbAction :=
  .commandOut token :: (dataActions d ++ [ackAction cmdId])

/-- `exclusiveAccess`: `CMD.EXCLUSIVE_ACCESS`, args only, no data phase. -/
def exclusiveAccessCmd : Nat × CmdData := (0x01, .noData)

/-- `exitXip`: `CMD.EXIT_XIP`, no data phase. -/
def exitXipCmd : Nat × CmdData := (0x06, .noData)

/-- `flashErase`: `CMD.FLASH_ERASE`, args only, no data phase. -/
def flashEraseCmd : Nat × CmdData := (0x03, .noData)

/-- `flashWrite`: `CMD.WRITE` with the page bytes as host-to-device data. -/
def flashWriteCmd (bytes : List Nat) : Nat × CmdData := (0x05, .writeData bytes)

/-- `flashRead`: `CMD.READ` (bit 7 set) expecting `n` device-to-host bytes. -/
def flashReadCmd (n : Nat) : Nat × CmdData := (0x84, .readLen n)

/-- `reboot`: `CMD.REBOOT`, args only, no data phase. -/
def rebootCmd : Nat × CmdData := (0x02, .noData)

/-- C8 (amended).  The acknowledgment is always attempted after the data
phase, and its direction is decided solely by bit 7 of the command id:
bit 7 set → zero-length bulk OUT, bit 7 clear → bulk IN.  For every
data-bearing exchange this is the direction opposite to the data phase
(writes pair with bit-7-clear ids, reads with bit-7-set ids at every call
site), and every one of the client's no-data commands has bit 7 clear and so
acknowledges via bulk IN; but a zero-length read (`flashRead(addr, 0)`,
bit 7 set, no data phase) acknowledges via bulk OUT, so "every command with
no data phase acknowledges via bulk IN" does not hold verbatim. -/
theorem ack_direction_spec :
    (∀ (cmdId : Nat) (d : CmdData) (t : Nat),
      oncePhaseTrace cmdId d t =
        .commandOut t :: (dataActions d ++ [ackAction cmdId])) ∧
    (∀ (cmdId : Nat) (d : CmdData) (t : Nat), cmdId &&& 0x80 ≠ 0 →
      (oncePhaseTrace cmdId d t).getLast? = some .ackOut) ∧
    (∀ (cmdId : Nat) (d : CmdData) (t : Nat), cmdId &&& 0x80 = 0 →
      (oncePhaseTrace cmdId d t).getLast? = some .ackIn) ∧
    (∀ (bytes : List Nat) (t : Nat), 0 < bytes.length →
      oncePhaseTrace (flashWriteCmd bytes).1 (flashWriteCmd bytes).2 t =
        [.commandOut t, .dataOut bytes.length, .ackIn]) ∧
    (∀ (n t : Nat), 0 < n →
      oncePhaseTrace (flashReadCmd n).1 (flashReadCmd n).2 t =
        [.commandOut t, .dataIn n, .ackOut]) ∧
    (∀ t : Nat,
      oncePhaseTrace exclusiveAccessCmd.1 exclusiveAccessCmd.2 t =
          [.commandOut t, .ackIn] ∧
        oncePhaseTrace exitXipCmd.1 exitXipCmd.2 t = [.commandOut t, .ackIn] ∧
        oncePhaseTrace flashEraseCmd.1 flashEraseCmd.2 t =
          [.commandOut t, .ackIn] ∧
        oncePhaseTrace rebootCmd.1 rebootCmd.2 t = [.commandOut t, .ackIn]) := by
  refine ⟨fun _ _ _ => rfl, ?_, ?_, ?_, ?_, ?_⟩
  · intro cmdId d t h
    rw [oncePhaseTrace, ackAction, if_pos h, ← List.cons_append,
      List.getLast?_concat]
  · intro cmdId d t h
    rw [oncePhaseTrace, ackAction, if_neg (by simp [h]), ← List.cons_append,
      List.getLast?_concat]
  · intro bytes t h
    simp [oncePhaseTrace, flashWriteCmd, dataActions, ackAction, h]
    decide
  · intro n t h
    simp [oncePhaseTrace, flashReadCmd, dataActions, ackAction, h]
  · intro t
    refine ⟨rfl, rfl, rfl, rfl⟩

/-- C8 counterexample: the exchange `flashRead(addr, 0)` has **no** data
phase (the number `0` is falsy, so the read phase is skipped), yet because
its command id `0x84` has bit 7 set it is acknowledged with the zero-length
bulk OUT transfer, not the bulk IN transfer the claim requires of every
no-data command. -/
theorem ack_no_data_read_out_cex :
    dataActions (flashReadCmd 0).2 = [] ∧
      oncePhaseTrace (flashReadCmd 0).1 (flashReadCmd 0).2 7 =
        [.commandOut 7, .ackOut] ∧
      UsbAction.ackOut ≠ UsbAction.ackIn := by
  exact ⟨rfl, rfl, by decide⟩

/-- C8 witness. -/
theorem ack_direction_spec_witness :
    ((0x84 : Nat) &&& 0x80 ≠ 0) ∧
      (oncePhaseTrace 0x84 (CmdData.readLen 256) 3).getLast? =
        some UsbAction.ackOut :=
  ⟨by decide, ack_direction_spec.2.1 0x84 (CmdData.readLen 256) 3 (by decide)⟩

/-- Protocol-level events of one `_sendCommand` exchange (any number of
attempts). -/
inductive ProtoEvent where
  /-- `_buildCommand` consumed this token and the frame went out -/
  | frameSent (token : Nat)
  /-- the attempt failed with a stall-tagged error -/
  | stallDetected
  /-- `clearHalt('in', ...)` -/
  | haltClearedIn
  /-- `clearHalt('out', ...)` -/
  | haltClearedOut
  /-- the `PICOBOOT_IF_RESET` vendor control request -/
  | resetRequested
  /-- the attempt with this token completed the exchange -/
  | completed (token : Nat)
deriving DecidableEq, Repr

/-- `_resetInterface`: clear halts on both endpoints, then the vendor
reset-interface control request. -/
def resetInterfaceEvents : List ProtoEvent :=
  [.haltClearedIn, .haltClearedOut, .resetRequested]

/-- The `for (let attempt = 0; ...)` loop of `_sendCommand`, driven by a
stall oracle `stalls` telling which attempts fail with a stall-tagged error
(non-stall failures abort immediately and are outside claim C2).  `fuel` is
the number of attempts left *after* the current one plus one, so
`attempt < MAX_RETRIES - 1` is `fuel ≠ 1`; the `fuel = 0` base case is the
unreachable loop fall-through.  Every attempt consumes one token
(`this._token++` inside `_buildCommand` runs before any transfer); a
non-final stall runs `_resetInterface` and retries; a final stall rethrows
with no reset and no further attempt. -/
def sendCommandLoop (stalls : Nat → Bool) : Nat → Nat → Nat →
    Option Nat × List ProtoEvent
  | _, _, 0 => (none, [])
  | token, attempt, fuel + 1 =>
    if stalls attempt then
      if fuel = 0 then (none, [.frameSent token, .stallDetected])
      else
        let r := sendCommandLoop stalls (token + 1) (attempt + 1) fuel
        (r.1, [.frameSent token, .stallDetected] ++ resetInterfaceEvents ++ r.2)
    else (some token, [.frameSent token, .completed token])

/-- `_sendCommand`: up to `MAX_RETRIES = 3` attempts starting at the current
session token. -/
def sendCommand (stalls : Nat → Bool) (token : Nat) :
    Option Nat × List ProtoEvent :=
  sendCommandLoop stalls token 0 MAX_RETRIES

/-- The tokens of the frames actually sent during an exchange. -/
def frameTokens (evs : List ProtoEvent) : List Nat :=
  evs.filterMap fun e =>
    match e with
    | .frameSent t => some t
    | _ => none

/-- C2.  (a) If exactly one attempt stalls (the first attempt stalls, the
retry does not), the exchange recovers by clearing halts on both endpoints
and issuing the vendor reset-interface request, then retries and completes
successfully, the retry frame carrying token `t0 + 1`, strictly greater than
the stalled attempt's token `t0`.  (b) If stalls occur on all 3 attempts the
exchange fails and exactly the three frames `t0, t0+1, t0+2` are sent — no
further attempt is made (and no reset follows the final stall).  (c) Frame
tokens are strictly increasing within an exchange, so tokens never repeat. -/
theorem command_stall_retry_spec :
    (∀ (stalls : Nat → Bool) (t0 : Nat), stalls 0 = true → stalls 1 = false →
      sendCommand stalls t0 =
        (some (t0 + 1),
          [.frameSent t0, .stallDetected, .haltClearedIn, .haltClearedOut,
            .resetRequested, .frameSent (t0 + 1), .completed (t0 + 1)]) ∧
        t0 < t0 + 1) ∧
    (∀ (stalls : Nat → Bool) (t0 : Nat),
      stalls 0 = true → stalls 1 = true → stalls 2 = true →
      (sendCommand stalls t0).1 = none ∧
      (sendCommand stalls t0).2 =
        [.frameSent t0, .stallDetected, .haltClearedIn, .haltClearedOut,
          .resetRequested, .frameSent (t0 + 1), .stallDetected,
          .haltClearedIn, .haltClearedOut, .resetRequested,
          .frameSent (t0 + 2), .stallDetected] ∧
      frameTokens (sendCommand stalls t0).2 = [t0, t0 + 1, t0 + 2]) ∧
    (∀ (stalls : Nat → Bool) (t0 : Nat),
      (frameTokens (sendCommand stalls t0).2).Pairwise (· < ·)) := by
  refine ⟨?_, ?_, ?_⟩
  · intro stalls t0 h0 h1
    constructor
    · simp [sendCommand, MAX_RETRIES, sendCommandLoop, h0, h1,
        resetInterfaceEvents]
    · omega
  · intro stalls t0 h0 h1 h2
    refine ⟨?_, ?_, ?_⟩ <;>
      simp [sendCommand, MAX_RETRIES, sendCommandLoop, h0, h1, h2,
        resetInterfaceEvents, frameTokens]
  · intro stalls t0
    cases h0 : stalls 0 <;> cases h1 : stalls 1 <;> cases h2 : stalls 2 <;>
      simp [sendCommand, MAX_RETRIES, sendCommandLoop, h0, h1, h2,
        resetInterfaceEvents, frameTokens, List.pairwise_cons] <;>
      omega

/-- The stall oracle that stalls exactly the first attempt. -/
def stallsOnce : Nat → Bool := fun n => n == 0

/-- C2 witness. -/
theorem command_stall_retry_spec_witness :
    stallsOnce 0 = true ∧ stallsOnce 1 = false ∧
      (sendCommand stallsOnce 5 =
        (some 6,
          [.frameSent 5, .stallDetected, .haltClearedIn, .haltClearedOut,
            .resetRequested, .frameSent 6, .completed 6]) ∧
        5 < 6) :=
  ⟨rfl, rfl, command_stall_retry_spec.1 stallsOnce 5 rfl rfl⟩

end PicoCTR
